import Mathlib

/-! # Verification of the targer sequence-tagging core

Shallow embedding of `src/classes/evaluator.py` and
`src/models/tagger_birnn_crf.py`. Helpers those files call whose sources are
not part of this repository snapshot (`classes/utils.py`,
`classes/datasets_bank.py`, `layers/layer_crf.py`, `classes/tag_component.py`)
are either abstracted by parameters or modelled from the specification, as
indicated in each doc comment.
-/

namespace Targer

variable {α : Type} {β : Type} {W : Type} {T : Type}

/-! ## Evaluator (`src/classes/evaluator.py`)

`TagComponent.is_equal` lives outside this snapshot, so the evaluator is
parametrised by an arbitrary boolean matching relation `eq`, where `eq a b`
stands for `a.is_equal(b, match_alpha_ratio)`. -/

/-- One iteration of the corpus loop of
`Evaluator.get_f1_from_components_sequences`: given the running
`(TP, FN, FP)` counters and one zipped pair
`(targets_tag_components, outputs_tag_components)`, each target span adds one
to `TP` when some output span `eq`-matches it (the inner `for`/`break`
search) and one to `FN` otherwise, and each output span adds one to `FP` when
no target span `eq`-matches it. Matched spans are not removed from either
list. -/
def f1_step (eq : α → α → Bool) (acc : ℕ × ℕ × ℕ) (pr : List α × List α) : ℕ × ℕ × ℕ :=
  (acc.1 + pr.1.countP (fun t => pr.2.any (fun o => eq o t)),
   acc.2.1 + pr.1.countP (fun t => !(pr.2.any (fun o => eq o t))),
   acc.2.2 + pr.2.countP (fun o => !(pr.1.any (fun t => eq t o))))

/-- `Evaluator.get_f1_from_components_sequences`: accumulates `(TP, FN, FP)`
counters over `zip(targets_..., outputs_...)` and returns
`(F1, Precision, Recall, (TP, FP, FN))` with the `max(..., 1)`-guarded rates;
rational arithmetic stands for Python float division. -/
def get_f1_from_components_sequences (eq : α → α → Bool)
    (targets outputs : List (List α)) : ℚ × ℚ × ℚ × (ℕ × ℕ × ℕ) :=
  let c := (targets.zip outputs).foldl (f1_step eq) (0, 0, 0)
  let Precision : ℚ := ((c.1 : ℚ) / ((max (c.1 + c.2.2) 1 : ℕ) : ℚ)) * 100
  let Recall : ℚ := ((c.1 : ℚ) / ((max (c.1 + c.2.1) 1 : ℕ) : ℚ)) * 100
  let F1 : ℚ := (((2 * c.1 : ℕ) : ℚ) / ((max (2 * c.1 + c.2.2 + c.2.1) 1 : ℕ) : ℚ)) * 100
  (F1, Precision, Recall, (c.1, c.2.2, c.2.1))

/-- Boolean test that `pat` is an initial segment of `s` (character-wise). -/
def leadsWith : List Char → List Char → Bool
  | [], _ => true
  | _ :: _, [] => false
  | a :: ps, b :: s => a == b && leadsWith ps s

/-- Python `str.replace(pat, '')` over character lists: deletes the
occurrences of `pat` found by a single left-to-right non-overlapping scan.
Embeds the `.replace('Namespace(', '')` and `.replace(')', '')` steps of
`Evaluator.write_text_report`; both uses have a nonempty `pat`. -/
def removePy (pat : List Char) : List Char → List Char
  | [] => []
  | a :: t =>
    if h : pat ≠ [] ∧ leadsWith pat (a :: t) = true then
      removePy pat ((a :: t).drop pat.length)
    else
      a :: removePy pat t
termination_by s => s.length
decreasing_by
· have hp : 0 < pat.length := List.length_pos.mpr h.1
  simp only [List.length_drop, List.length_cons]
  omega
· simp only [List.length_cons]
  omega

/-- Python `str.split(', ')` over character lists: a left-to-right scan that
closes the current piece at each occurrence of the two-character separator.
Embeds the `.split(', ')` step of `Evaluator.write_text_report`. -/
def splitPy (s : List Char) : List (List Char) :=
  match s with
  | [] => [[]]
  | a :: t =>
    if a = (',') ∧ t.head? = some (' ') then
      [] :: splitPy t.tail
    else
      match splitPy t with
      | [] => [[a]]
      | r :: rs => (a :: r) :: rs
termination_by s.length
decreasing_by
· simp only [List.length_tail, List.length_cons]
  omega
· simp only [List.length_cons]
  omega

/-- The literal `'Namespace('` stripped by `Evaluator.write_text_report`. -/
def namespaceTag : List Char := ("Namespace(").data

/-- The content written to the file by `Evaluator.write_text_report`: the
rendering `str(args)` of the argparse namespace has `'Namespace('` and `')'`
removed and is split on `', '`; every resulting hyperparameter is written on
its own line (`'%s\n' % hyper_param`), and finally `scores_report_str` is
written verbatim. -/
def write_text_report (args_str scores_report_str : List Char) : List Char :=
  let hyperParams := splitPy (removePy ([')']) (removePy namespaceTag args_str))
  (hyperParams.map (fun h => h ++ ['\n'])).flatten ++ scores_report_str

/-- Rendering of the entry list of an argparse namespace: the entries joined
by the separator `sep` (used with `sep = ', '` to describe the inside of
`str(args) = 'Namespace(' + ... + ')'`). -/
def joinSep (sep : List Char) : List (List Char) → List Char
  | [] => []
  | [e] => e
  | e :: r :: t => e ++ sep ++ joinSep sep (r :: t)

/-! ## TaggerBiRNNCRF (`src/models/tagger_birnn_crf.py`) -/

/-- The two bidirectional recurrent layer variants selectable in
`TaggerBiRNNCRF.__init__`. -/
inductive BiRNNLayer : Type
  | biGRU : BiRNNLayer
  | biLSTM : BiRNNLayer
deriving DecidableEq

/-- The `rnn_type` dispatch in `TaggerBiRNNCRF.__init__`: `'GRU'` and `'LSTM'`
select the corresponding bidirectional layer, and any other string raises
`ValueError` at construction time. -/
def select_birnn_layer (rnn_type : String) : Except String BiRNNLayer :=
  if rnn_type = "GRU" then Except.ok BiRNNLayer.biGRU
  else if rnn_type = "LSTM" then Except.ok BiRNNLayer.biLSTM
  else Except.error ("Unknown rnn_type = %s, must be either \"LSTM\" or \"GRU\"")

/-- Modelled from the spec: `argsort_sequences_by_lens` from
`classes/utils.py`, which is not in this snapshot. Per the spec
(LengthBucketer), it returns a permutation `sort_idx` of `range(n)` ordering
the sequences by non-increasing length with ties kept in stable original
order, together with the inverse permutation `restore_idx`
(`restore_idx[q]` is the position of `q` inside `sort_idx`). -/
def argsort_sequences_by_lens (ws : List (List α)) : List ℕ × List ℕ :=
  let sortIdx := List.insertionSort
    (fun i j => (ws.getD j []).length ≤ (ws.getD i []).length)
    (List.range ws.length)
  (sortIdx, (List.range ws.length).map (fun i => sortIdx.indexOf i))

/-- Modelled from the spec: `DatasetsBank.get_sequences_by_indices` from
`classes/datasets_bank.py`, which is not in this snapshot: the reordering
`[sequences[i] for i in indices]`. -/
def get_sequences_by_indices [Inhabited β] (xs : List β) (idx : List ℕ) : List β :=
  idx.map (fun i => xs.getD i default)

/-- `TaggerBiRNNCRF.predict_idx_from_words`, with the composition of mask
building, the recurrent feature extractor and `LayerCRF.decode_viterbi`
abstracted as a per-sequence decoder `decode` (modelled from the spec:
decoding is independent across the sequences of a batch): reorder by
descending length, decode, then restore the caller's original order. -/
def predict_idx_from_words (decode : List W → List ℕ)
    (word_sequences : List (List W)) : List (List ℕ) :=
  let si := argsort_sequences_by_lens word_sequences
  let sorted := get_sequences_by_indices word_sequences si.1
  let out := sorted.map decode
  get_sequences_by_indices out si.2

/-- `TaggerBiRNNCRF.predict_tags_from_words` with a positive effective
`batch_size`: `batch_num = floor(len(word_sequences) / batch_size)`
sub-batches are processed; sub-batch `n` covers the slice
`word_sequences[n*batch_size : (n+1)*batch_size]` except the last processed
one, which runs to the end of the list; per-sub-batch index predictions are
converted by `idx2items` (the tag indexer) and concatenated in order. -/
def predict_tags_from_words (predictIdx : List (List W) → List (List ℕ))
    (idx2items : List (List ℕ) → List (List T))
    (word_sequences : List (List W)) (batch_size : ℕ) : List (List T) :=
  let batchNum := word_sequences.length / batch_size
  (List.range batchNum).foldl (fun acc n =>
    let i := n * batch_size
    let j := if n < batchNum - 1 then (n + 1) * batch_size else word_sequences.length
    acc ++ idx2items (predictIdx ((word_sequences.drop i).take (j - i)))) []

/-! ## LayerCRF (`layers/layer_crf.py`, modelled from the spec)

The CRF layer itself is not in this snapshot; only its caller
`TaggerBiRNNCRF.get_loss` is. Scores are idealised real numbers, as the spec
prescribes ("scores are real-valued"). A tag path over the `m` valid
(unmasked) positions of one sequence is a function `Fin m → Fin k` over the
`k = class_num + 2` states. -/

/-- Modelled from the spec: the tag preceding position `t` of a path — the
virtual start-of-sequence state `sos` at position 0, otherwise the path's tag
at `t - 1`. -/
def prev_tag (sos : ℕ) {m k : ℕ} (path : Fin m → Fin k) (t : Fin m) : ℕ :=
  if t.1 = 0 then sos else (path ⟨t.1 - 1, lt_of_le_of_lt (Nat.sub_le t.1 1) t.2⟩).1

/-- Modelled from the spec: `LayerCRF.numerator` for one sequence — the
gold-path score, summing over the valid positions the emission score of the
path's tag plus the transition score from the previous tag (or `sos` at
position 0) to it. -/
def path_score {m k : ℕ} (feats : ℕ → ℕ → ℝ) (trans : ℕ → ℕ → ℝ) (sos : ℕ)
    (path : Fin m → Fin k) : ℝ :=
  ∑ t : Fin m, (feats t.1 (path t).1 + trans (prev_tag sos path t) (path t).1)

/-- Modelled from the spec: `LayerCRF.denominator` for one sequence — the log
partition function, i.e. the log of the sum over all tag paths of the
exponential of their total score (computed in the source by a
log-sum-exp-based forward recursion over the valid positions). -/
noncomputable def log_partition (m k : ℕ) (feats trans : ℕ → ℕ → ℝ) (sos : ℕ) : ℝ :=
  Real.log (∑ p : Fin m → Fin k, Real.exp (path_score feats trans sos p))

/-- One sequence of a training batch as `TaggerBiRNNCRF.get_loss` sees it:
its number `len` of valid positions, its per-position per-tag emission scores
(the masked recurrent features), and its gold tag path. -/
structure CrfSeq (k : ℕ) : Type where
  len : ℕ
  feats : ℕ → ℕ → ℝ
  gold : Fin len → Fin k

/-- `TaggerBiRNNCRF.get_loss`:
`nll_loss = -mean(numerator - denominator)` over the batch, with
numerator and denominator modelled from the spec as `path_score` of the gold
path and `log_partition`. -/
noncomputable def get_loss (k B : ℕ) (trans : ℕ → ℕ → ℝ) (sos : ℕ)
    (batch : Fin B → CrfSeq k) : ℝ :=
  -((∑ b : Fin B, (path_score (batch b).feats trans sos (batch b).gold -
      log_partition (batch b).len k (batch b).feats trans sos)) / B)

/-! ## Helper lemmas -/

theorem f1_fold_spec (eq : α → α → Bool) (pairs : List (List α × List α)) (a b c : ℕ) :
    pairs.foldl (f1_step eq) (a, b, c) =
      (a + (pairs.map (fun pr => pr.1.countP (fun t => pr.2.any (fun o => eq o t)))).sum,
       b + (pairs.map (fun pr => pr.1.countP (fun t => !(pr.2.any (fun o => eq o t))))).sum,
       c + (pairs.map (fun pr => pr.2.countP (fun o => !(pr.1.any (fun t => eq t o))))).sum) := by
  induction pairs generalizing a b c with
  | nil => simp
  | cons pr rest ih =>
    simp only [List.foldl_cons, List.map_cons, List.sum_cons, f1_step, ih, Nat.add_assoc]

theorem decide_bex_eq_any (p : α → Bool) (l : List α) :
    decide (∃ o ∈ l, p o = true) = l.any p := by
  rw [Bool.eq_iff_iff]
  simp [List.any_eq_true]

theorem decide_not_bex_eq_any (p : α → Bool) (l : List α) :
    decide (¬ ∃ o ∈ l, p o = true) = !(l.any p) := by
  rw [decide_not, decide_bex_eq_any]

theorem countP_not_add (p : α → Bool) (l : List α) :
    l.countP p + l.countP (fun a => !(p a)) = l.length := by
  induction l with
  | nil => rfl
  | cons x xs ih => cases h : p x <;> simp [List.countP_cons, h] <;> omega

theorem zip_eq_zip_take_min {γ δ : Type} :
    ∀ (xs : List γ) (ys : List δ),
      xs.zip ys = (xs.take (min xs.length ys.length)).zip
        (ys.take (min xs.length ys.length))
  | [], ys => by simp
  | x :: xs, [] => by simp
  | x :: xs, y :: ys => by
    simp only [List.zip_cons_cons, List.length_cons, Nat.succ_min_succ, List.take_succ_cons]
    rw [zip_eq_zip_take_min xs ys]

theorem zip_self_eq_map (l : List γ) : l.zip l = l.map (fun a => (a, a)) := by
  induction l with
  | nil => rfl
  | cons x xs ih => simp [ih]

/-! ## Claim theorems -/

/-- C2: in `get_f1_from_components_sequences`, for every zipped gold/predicted
pair of span lists, each gold span counts as one TP exactly when at least one
predicted span of the same sequence `is_equal`-matches it and as one FN
otherwise, and each predicted span counts as one FP exactly when no gold
span of the same sequence matches it; every span is judged by a pure
existence test over the full other list (matched spans are never removed), so
one predicted span may satisfy several gold spans and conversely, and
TP + FN equals the total number of gold spans over the zipped pairs. -/
theorem get_f1_counts_by_independent_matching (eq : α → α → Bool)
    (targets outputs : List (List α)) :
    (get_f1_from_components_sequences eq targets outputs).2.2.2.1 =
      ((targets.zip outputs).map
        (fun pr => pr.1.countP (fun t => decide (∃ o ∈ pr.2, eq o t = true)))).sum
    ∧ (get_f1_from_components_sequences eq targets outputs).2.2.2.2.2 =
      ((targets.zip outputs).map
        (fun pr => pr.1.countP (fun t => decide (¬ ∃ o ∈ pr.2, eq o t = true)))).sum
    ∧ (get_f1_from_components_sequences eq targets outputs).2.2.2.2.1 =
      ((targets.zip outputs).map
        (fun pr => pr.2.countP (fun o => decide (¬ ∃ t ∈ pr.1, eq t o = true)))).sum
    ∧ (get_f1_from_components_sequences eq targets outputs).2.2.2.1 +
        (get_f1_from_components_sequences eq targets outputs).2.2.2.2.2 =
      ((targets.zip outputs).map (fun pr => pr.1.length)).sum := by
  simp only [get_f1_from_components_sequences,
    f1_fold_spec eq (targets.zip outputs) 0 0 0, Nat.zero_add]
  refine ⟨?_, ?_, ?_, ?_⟩
  · simp only [decide_bex_eq_any]
  · simp only [decide_not_bex_eq_any]
  · simp only [decide_not_bex_eq_any]
  · induction targets.zip outputs with
    | nil => simp
    | cons pr rest ih =>
      simp only [List.map_cons, List.sum_cons]
      have hcnt := countP_not_add (fun t => pr.2.any (fun o => eq o t)) pr.1
      omega

/-- C3: `get_f1_from_components_sequences` returns, alongside its accumulated
counter triple `(TP, FP, FN)`, the rates
`Precision = TP / max(TP + FP, 1) * 100`, `Recall = TP / max(TP + FN, 1) * 100`
and `F1 = 2 * TP / max(2 * TP + FP + FN, 1) * 100`; every denominator is
strictly positive (so no division by zero is possible), and each rate is `0`
whenever `TP` and the other term of its denominator are both `0`. -/
theorem get_f1_rates_formula (eq : α → α → Bool) (targets outputs : List (List α)) :
    ∃ TP FP FN : ℕ,
      get_f1_from_components_sequences eq targets outputs =
        ((((2 * TP : ℕ) : ℚ) / ((max (2 * TP + FP + FN) 1 : ℕ) : ℚ)) * 100,
         ((TP : ℚ) / ((max (TP + FP) 1 : ℕ) : ℚ)) * 100,
         ((TP : ℚ) / ((max (TP + FN) 1 : ℕ) : ℚ)) * 100,
         (TP, FP, FN))
      ∧ (0 : ℚ) < ((max (TP + FP) 1 : ℕ) : ℚ)
      ∧ (0 : ℚ) < ((max (TP + FN) 1 : ℕ) : ℚ)
      ∧ (0 : ℚ) < ((max (2 * TP + FP + FN) 1 : ℕ) : ℚ)
      ∧ (TP = 0 ∧ FP = 0 →
          (get_f1_from_components_sequences eq targets outputs).2.1 = 0)
      ∧ (TP = 0 ∧ FN = 0 →
          (get_f1_from_components_sequences eq targets outputs).2.2.1 = 0)
      ∧ (TP = 0 ∧ FP = 0 ∧ FN = 0 →
          (get_f1_from_components_sequences eq targets outputs).1 = 0) := by
  refine ⟨((targets.zip outputs).foldl (f1_step eq) (0, 0, 0)).1,
    ((targets.zip outputs).foldl (f1_step eq) (0, 0, 0)).2.2,
    ((targets.zip outputs).foldl (f1_step eq) (0, 0, 0)).2.1, rfl, ?_, ?_, ?_, ?_, ?_, ?_⟩
  · have : (0 : ℕ) < max (((targets.zip outputs).foldl (f1_step eq) (0, 0, 0)).1 +
        ((targets.zip outputs).foldl (f1_step eq) (0, 0, 0)).2.2) 1 := by omega
    exact_mod_cast this
  · have : (0 : ℕ) < max (((targets.zip outputs).foldl (f1_step eq) (0, 0, 0)).1 +
        ((targets.zip outputs).foldl (f1_step eq) (0, 0, 0)).2.1) 1 := by omega
    exact_mod_cast this
  · have : (0 : ℕ) < max (2 * ((targets.zip outputs).foldl (f1_step eq) (0, 0, 0)).1 +
        ((targets.zip outputs).foldl (f1_step eq) (0, 0, 0)).2.2 +
        ((targets.zip outputs).foldl (f1_step eq) (0, 0, 0)).2.1) 1 := by omega
    exact_mod_cast this
  · intro h
    simp only [get_f1_from_components_sequences, mul_eq_zero, div_eq_zero_iff]
    exact Or.inl (Or.inl (by exact_mod_cast h.1))
  · intro h
    simp only [get_f1_from_components_sequences, mul_eq_zero, div_eq_zero_iff]
    exact Or.inl (Or.inl (by exact_mod_cast h.1))
  · intro h
    simp only [get_f1_from_components_sequences, mul_eq_zero, div_eq_zero_iff]
    exact Or.inl (Or.inl (by exact_mod_cast Nat.mul_eq_zero.mpr (Or.inr h.1)))

/-- C3 witness: the rate formulas instantiated at a one-sequence,
one-matching-span corpus. -/
theorem get_f1_rates_formula_witness :
    ∃ TP FP FN : ℕ,
      get_f1_from_components_sequences (fun x y : ℕ => x == y) [[0]] [[0]] =
        ((((2 * TP : ℕ) : ℚ) / ((max (2 * TP + FP + FN) 1 : ℕ) : ℚ)) * 100,
         ((TP : ℚ) / ((max (TP + FP) 1 : ℕ) : ℚ)) * 100,
         ((TP : ℚ) / ((max (TP + FN) 1 : ℕ) : ℚ)) * 100,
         (TP, FP, FN))
      ∧ (0 : ℚ) < ((max (TP + FP) 1 : ℕ) : ℚ)
      ∧ (0 : ℚ) < ((max (TP + FN) 1 : ℕ) : ℚ)
      ∧ (0 : ℚ) < ((max (2 * TP + FP + FN) 1 : ℕ) : ℚ)
      ∧ (TP = 0 ∧ FP = 0 →
          (get_f1_from_components_sequences (fun x y : ℕ => x == y) [[0]] [[0]]).2.1 = 0)
      ∧ (TP = 0 ∧ FN = 0 →
          (get_f1_from_components_sequences (fun x y : ℕ => x == y) [[0]] [[0]]).2.2.1 = 0)
      ∧ (TP = 0 ∧ FP = 0 ∧ FN = 0 →
          (get_f1_from_components_sequences (fun x y : ℕ => x == y) [[0]] [[0]]).1 = 0) :=
  get_f1_rates_formula (fun x y : ℕ => x == y) [[0]] [[0]]

/-- C10: only the first `min(len(targets), len(outputs))` sequence pairs are
scored by `get_f1_from_components_sequences` (Python `zip` truncates to the
shorter argument), so trailing sequences of the longer corpus contribute
nothing to any returned value. -/
theorem get_f1_only_min_length_prefix_scored (eq : α → α → Bool)
    (targets outputs : List (List α)) :
    get_f1_from_components_sequences eq targets outputs =
      get_f1_from_components_sequences eq
        (targets.take (min targets.length outputs.length))
        (outputs.take (min targets.length outputs.length)) := by
  unfold get_f1_from_components_sequences
  rw [← zip_eq_zip_take_min]

/-- C7 counterexample: a corpus whose predicted span sequences are identical
to its gold span sequences (one sequence, zero spans) with a reflexive match
relation, on which the returned F1 is `0`, not `100`. -/
theorem get_f1_identical_empty_f1_not_100 :
    (get_f1_from_components_sequences (fun x y : ℕ => x == y) [[]] [[]]).1 ≠ 100 := by
  norm_num [get_f1_from_components_sequences, f1_step]

/-- C7 (amended): for every corpus whose predicted span sequences are
identical to the gold span sequences, with a match relation that holds for
identical spans, `get_f1_from_components_sequences` yields TP equal to the
total number of gold spans with FP = 0 and FN = 0; provided at least one gold
span exists, F1 = 100 (with no spans at all, F1 is 0). -/
theorem get_f1_identical_corpora (eq : α → α → Bool) (targets : List (List α))
    (href : ∀ x, eq x x = true)
    (hpos : 0 < (targets.map List.length).sum) :
    (get_f1_from_components_sequences eq targets targets).2.2.2 =
      ((targets.map List.length).sum, 0, 0)
    ∧ (get_f1_from_components_sequences eq targets targets).1 = 100 := by
  have hall : ∀ l : List α, ∀ t ∈ l, l.any (fun o => eq o t) = true := by
    intro l t ht
    exact List.any_eq_true.mpr ⟨t, ht, href t⟩
  have htp : ∀ l : List α, l.countP (fun t => l.any (fun o => eq o t)) = l.length := by
    intro l
    exact List.countP_eq_length.mpr (hall l)
  have hfn : ∀ l : List α, l.countP (fun t => !(l.any (fun o => eq o t))) = 0 := by
    intro l
    refine List.countP_eq_zero.mpr ?_
    intro t ht
    simp [hall l t ht]
  have hc : (targets.zip targets).foldl (f1_step eq) (0, 0, 0) =
      ((targets.map List.length).sum, 0, 0) := by
    rw [f1_fold_spec, zip_self_eq_map]
    simp only [List.map_map, Nat.zero_add, Prod.mk.injEq]
    refine ⟨?_, ?_, ?_⟩
    · refine congrArg List.sum ?_
      refine congrArg (fun f => List.map f targets) ?_
      funext l
      exact htp l
    · refine List.sum_eq_zero ?_
      intro x hx
      obtain ⟨l, hl, hxl⟩ := List.mem_map.mp hx
      rw [← hxl]
      exact hfn l
    · refine List.sum_eq_zero ?_
      intro x hx
      obtain ⟨l, hl, hxl⟩ := List.mem_map.mp hx
      rw [← hxl]
      exact hfn l
  constructor
  · simp only [get_f1_from_components_sequences, hc]
  · simp only [get_f1_from_components_sequences, hc]
    have hmax : max (2 * (targets.map List.length).sum + 0 + 0) 1 =
        2 * (targets.map List.length).sum := by omega
    rw [hmax]
    have hne : (((2 * (targets.map List.length).sum : ℕ) : ℚ)) ≠ 0 := by
      have : (0 : ℕ) < 2 * (targets.map List.length).sum := by omega
      exact_mod_cast Nat.pos_iff_ne_zero.mp this
    rw [div_self hne]
    norm_num

/-- C7 witness: a one-sequence, one-span corpus compared against itself. -/
theorem get_f1_identical_corpora_witness :
    (get_f1_from_components_sequences (fun x y : ℕ => x == y) [[3]] [[3]]).2.2.2 =
      (([[(3 : ℕ)]].map List.length).sum, 0, 0)
    ∧ (get_f1_from_components_sequences (fun x y : ℕ => x == y) [[3]] [[3]]).1 = 100 :=
  get_f1_identical_corpora (fun x y : ℕ => x == y) [[3]]
    (fun x => by simp) (by decide)

theorem argsort_fst_perm (ws : List (List α)) :
    ((argsort_sequences_by_lens ws).1).Perm (List.range ws.length) := by
  simpa [argsort_sequences_by_lens] using
    List.perm_insertionSort
      (fun i j => (ws.getD j []).length ≤ (ws.getD i []).length)
      (List.range ws.length)

theorem argsort_fst_length (ws : List (List α)) :
    (argsort_sequences_by_lens ws).1.length = ws.length := by
  simpa using (argsort_fst_perm ws).length_eq

theorem argsort_mem (ws : List (List α)) (i : ℕ) (h : i < ws.length) :
    i ∈ (argsort_sequences_by_lens ws).1 :=
  (argsort_fst_perm ws).mem_iff.mpr (List.mem_range.mpr h)

theorem argsort_snd_eq (ws : List (List α)) :
    (argsort_sequences_by_lens ws).2 =
      (List.range ws.length).map (fun i => (argsort_sequences_by_lens ws).1.indexOf i) :=
  rfl

theorem get_sequences_restore {β : Type} [Inhabited β] (ws : List (List α)) (xs : List β)
    (hlen : xs.length = ws.length) :
    get_sequences_by_indices
      (get_sequences_by_indices xs (argsort_sequences_by_lens ws).1)
      (argsort_sequences_by_lens ws).2 = xs := by
  have hslen : (argsort_sequences_by_lens ws).1.length = ws.length := argsort_fst_length ws
  have hAlen : (get_sequences_by_indices xs (argsort_sequences_by_lens ws).1).length =
      ws.length := by
    simp [get_sequences_by_indices, hslen]
  refine List.ext_getElem ?_ ?_
  · simp [get_sequences_by_indices, argsort_snd_eq, hlen]
  · intro i h1 h2
    have hi : i < ws.length := by
      rw [hlen] at h2
      exact h2
    have him : i ∈ (argsort_sequences_by_lens ws).1 := argsort_mem ws i hi
    have hidx : (argsort_sequences_by_lens ws).1.indexOf i <
        (argsort_sequences_by_lens ws).1.length :=
      List.indexOf_lt_length.mpr him
    have hilen : i < ((argsort_sequences_by_lens ws).2).length := by
      simpa [argsort_snd_eq] using hi
    have hstep1 : (get_sequences_by_indices
        (get_sequences_by_indices xs (argsort_sequences_by_lens ws).1)
        (argsort_sequences_by_lens ws).2)[i] =
        (get_sequences_by_indices xs (argsort_sequences_by_lens ws).1).getD
          (((argsort_sequences_by_lens ws).2).getD i 0) default := by
      simp only [get_sequences_by_indices, List.getElem_map]
      rw [List.getD_eq_getElem _ _ hilen]
    have hstep2 : ((argsort_sequences_by_lens ws).2).getD i 0 =
        (argsort_sequences_by_lens ws).1.indexOf i := by
      rw [argsort_snd_eq, List.getD_eq_getElem _ _ (by simpa using hi)]
      simp
    have hidxA : (argsort_sequences_by_lens ws).1.indexOf i <
        (get_sequences_by_indices xs (argsort_sequences_by_lens ws).1).length := by
      rw [hAlen, ← hslen]
      exact hidx
    have hstep3 : (get_sequences_by_indices xs (argsort_sequences_by_lens ws).1).getD
        ((argsort_sequences_by_lens ws).1.indexOf i) default = xs.getD i default := by
      rw [List.getD_eq_getElem _ _ hidxA]
      simp only [get_sequences_by_indices, List.getElem_map]
      rw [List.getElem_indexOf hidx]
    rw [hstep1, hstep2, hstep3, List.getD_eq_getElem _ _ h2]

/-- C5: for every input list of word sequences (any permutation of lengths,
duplicate lengths included), reordering by `sort_indices` and then applying
`reverse_sort_indices` restores the exact original order and contents, and
consequently `predict_idx_from_words` returns the per-sequence decodings in
the caller's original input order. -/
theorem predict_idx_restores_original_order (ws : List (List α))
    (decode : List α → List ℕ) :
    get_sequences_by_indices
      (get_sequences_by_indices ws (argsort_sequences_by_lens ws).1)
      (argsort_sequences_by_lens ws).2 = ws
    ∧ predict_idx_from_words decode ws = ws.map decode := by
  constructor
  · exact get_sequences_restore ws ws rfl
  · show get_sequences_by_indices
      ((get_sequences_by_indices ws (argsort_sequences_by_lens ws).1).map decode)
      (argsort_sequences_by_lens ws).2 = ws.map decode
    have hmap : (get_sequences_by_indices ws (argsort_sequences_by_lens ws).1).map decode
        = get_sequences_by_indices (ws.map decode) (argsort_sequences_by_lens ws).1 := by
      unfold get_sequences_by_indices
      rw [List.map_map]
      refine List.map_congr_left ?_
      intro q hq
      have hqlt : q < ws.length :=
        List.mem_range.mp ((argsort_fst_perm ws).mem_iff.mp hq)
      show decode (ws.getD q default) = (ws.map decode).getD q default
      rw [List.getD_eq_getElem _ _ hqlt,
        List.getD_eq_getElem _ _ (by simpa using hqlt), List.getElem_map]
    rw [hmap, get_sequences_restore ws (ws.map decode) (by simp)]

/-- C6: constructing a `TaggerBiRNNCRF` with an `rnn_type` string other than
`'GRU'` or `'LSTM'` raises `ValueError` at construction time; an unrecognized
cell-type string is never silently defaulted to either recurrent variant. -/
theorem tagger_unknown_rnn_type_errors (rnn_type : String)
    (h1 : rnn_type ≠ "GRU") (h2 : rnn_type ≠ "LSTM") :
    select_birnn_layer rnn_type =
      Except.error ("Unknown rnn_type = %s, must be either \"LSTM\" or \"GRU\"")
    ∧ ∀ layer : BiRNNLayer, select_birnn_layer rnn_type ≠ Except.ok layer := by
  refine ⟨by simp [select_birnn_layer, h1, h2], ?_⟩
  intro layer
  simp [select_birnn_layer, h1, h2]

/-- C6 witness: the construction-time dispatch at the concrete unrecognized
string `'RNN'`. -/
theorem tagger_unknown_rnn_type_errors_witness :
    select_birnn_layer ("RNN") =
      Except.error ("Unknown rnn_type = %s, must be either \"LSTM\" or \"GRU\"")
    ∧ ∀ layer : BiRNNLayer, select_birnn_layer ("RNN") ≠ Except.ok layer :=
  tagger_unknown_rnn_type_errors ("RNN") (by decide) (by decide)

/-- C9: when the effective `batch_size` is positive and the non-empty input
list is strictly shorter than it, `predict_tags_from_words` processes
`floor(len(word_sequences) / batch_size) = 0` sub-batches and returns the
empty list of tag sequences. -/
theorem predict_tags_small_input_empty {W T : Type}
    (predictIdx : List (List W) → List (List ℕ))
    (idx2items : List (List ℕ) → List (List T))
    (word_sequences : List (List W)) (batch_size : ℕ)
    (hbs : 0 < batch_size) (hne : word_sequences ≠ [])
    (hlt : word_sequences.length < batch_size) :
    word_sequences.length / batch_size = 0
    ∧ predict_tags_from_words predictIdx idx2items word_sequences batch_size = [] := by
  have h0 : word_sequences.length / batch_size = 0 := Nat.div_eq_of_lt hlt
  refine ⟨h0, ?_⟩
  simp [predict_tags_from_words, h0]

/-- C9 witness: one input sequence with `batch_size = 2`. -/
theorem predict_tags_small_input_empty_witness :
    ([[(1 : ℕ)]] : List (List ℕ)).length / 2 = 0
    ∧ predict_tags_from_words (fun x => x) (fun x => x) ([[(1 : ℕ)]]) 2 = [] :=
  predict_tags_small_input_empty (fun x => x) (fun x => x) ([[(1 : ℕ)]]) 2
    (by decide) (by decide) (by decide)

/-- C1: the batch-splitting contract fails on the code. With one input
sequence and sub-batch size 2 — a positive sub-batch size — `batch_num` is
`floor(1/2) = 0`, so `predict_tags_from_words` returns no tag sequences at
all, whereas predicting the same list in a single whole-list call (sub-batch
size 1 here) returns one tag sequence per input sequence. The decoder is the
spec-modelled `predict_idx_from_words` over a constant per-sequence
decoder and the identity tag conversion. -/
theorem predict_tags_batch_split_failing_input :
    predict_tags_from_words
      (predict_idx_from_words (fun s : List ℕ => List.replicate s.length 0))
      (fun x => x) ([[5]]) 2 = []
    ∧ predict_tags_from_words
      (predict_idx_from_words (fun s : List ℕ => List.replicate s.length 0))
      (fun x => x) ([[5]]) 1 = [[0]] := by
  constructor
  · rfl
  · rfl

/-- C4: for every batch, every sequence's gold-path score (the CRF
numerator) is at most its log partition function (the CRF denominator),
since the gold path is one of the paths summed inside the partition
function; therefore the negative log-likelihood
`get_loss = -mean(numerator - denominator)` is nonnegative. -/
theorem crf_gold_le_partition_and_loss_nonneg (k B : ℕ)
    (trans : ℕ → ℕ → ℝ) (sos : ℕ) (batch : Fin B → CrfSeq k) :
    (∀ b : Fin B,
      path_score (batch b).feats trans sos (batch b).gold ≤
        log_partition (batch b).len k (batch b).feats trans sos)
    ∧ 0 ≤ get_loss k B trans sos batch := by
  have key : ∀ b : Fin B,
      path_score (batch b).feats trans sos (batch b).gold ≤
        log_partition (batch b).len k (batch b).feats trans sos := by
    intro b
    have hsum : Real.exp (path_score (batch b).feats trans sos (batch b).gold) ≤
        ∑ p : Fin (batch b).len → Fin k,
          Real.exp (path_score (batch b).feats trans sos p) :=
      Finset.single_le_sum (fun p _ => (Real.exp_pos _).le)
        (Finset.mem_univ (batch b).gold)
    have hlog := Real.log_le_log (Real.exp_pos _) hsum
    simpa [log_partition, Real.log_exp] using hlog
  refine ⟨key, ?_⟩
  unfold get_loss
  have hsum_nonpos : (∑ b : Fin B,
      (path_score (batch b).feats trans sos (batch b).gold -
        log_partition (batch b).len k (batch b).feats trans sos)) ≤ 0 :=
    Finset.sum_nonpos (fun b _ => sub_nonpos.mpr (key b))
  have hdiv : (∑ b : Fin B,
      (path_score (batch b).feats trans sos (batch b).gold -
        log_partition (batch b).len k (batch b).feats trans sos)) / (B : ℝ) ≤ 0 :=
    div_nonpos_iff.mpr (Or.inr ⟨hsum_nonpos, Nat.cast_nonneg B⟩)
  linarith

theorem leadsWith_subset (p : List Char) :
    ∀ s : List Char, leadsWith p s = true → ∀ c ∈ p, c ∈ s := by
  induction p with
  | nil =>
    intro s _ c hc
    exact absurd hc (List.not_mem_nil c)
  | cons a ps ih =>
    intro s h c hc
    cases s with
    | nil => exact absurd h (by simp [leadsWith])
    | cons b t =>
      simp only [leadsWith, Bool.and_eq_true, beq_iff_eq] at h
      rcases List.mem_cons.mp hc with hca | hcp
      · exact List.mem_cons.mpr (Or.inl (by rw [hca, h.1]))
      · exact List.mem_cons.mpr (Or.inr (ih t h.2 c hcp))

theorem leadsWith_append (p t : List Char) : leadsWith p (p ++ t) = true := by
  induction p with
  | nil => rfl
  | cons a ps ih => simp [leadsWith, ih]

theorem removePy_no_occurrence (pat : List Char) (c : Char) (hc : c ∈ pat) :
    ∀ s : List Char, c ∉ s → removePy pat s = s := by
  intro s
  induction s with
  | nil =>
    intro _
    simp [removePy]
  | cons a t ih =>
    intro hs
    have hcond : ¬(pat ≠ [] ∧ leadsWith pat (a :: t) = true) := by
      rintro ⟨-, hpre⟩
      exact hs (leadsWith_subset pat (a :: t) hpre c hc)
    rw [removePy, dif_neg hcond]
    have hct : c ∉ t := fun h => hs (List.mem_cons.mpr (Or.inr h))
    rw [ih hct]

theorem removePy_at_head (pat rest : List Char) (hpat : pat ≠ []) :
    removePy pat (pat ++ rest) = removePy pat rest := by
  cases pat with
  | nil => exact absurd rfl hpat
  | cons p ps =>
    have hcond : (p :: ps) ≠ [] ∧ leadsWith (p :: ps) (p :: (ps ++ rest)) = true :=
      ⟨by simp, leadsWith_append (p :: ps) rest⟩
    rw [show (p :: ps) ++ rest = p :: (ps ++ rest) from rfl, removePy, dif_pos hcond]
    congr 1
    exact List.drop_left ps rest

theorem removePy_single_eq_filter (c : Char) :
    ∀ s : List Char, removePy [c] s = s.filter (fun x => !(x == c)) := by
  intro s
  induction s with
  | nil => simp [removePy]
  | cons a t ih =>
    by_cases hac : c = a
    · have hcond : ([c] : List Char) ≠ [] ∧ leadsWith [c] (a :: t) = true := by
        refine ⟨by simp, ?_⟩
        simp [leadsWith, hac]
      rw [removePy, dif_pos hcond]
      simp only [List.length_cons, List.length_nil, List.drop_succ_cons, List.drop_zero]
      rw [ih]
      have : (a == c) = true := by simp [hac.symm]
      simp [List.filter_cons, this]
    · have hcond : ¬(([c] : List Char) ≠ [] ∧ leadsWith [c] (a :: t) = true) := by
        rintro ⟨-, hpre⟩
        simp only [leadsWith, Bool.and_eq_true, beq_iff_eq] at hpre
        exact hac hpre.1
      rw [removePy, dif_neg hcond, ih]
      have : (a == c) = false := by
        simp only [beq_eq_false_iff_ne, ne_eq]
        exact fun h => hac h.symm
      simp [List.filter_cons, this]

theorem mem_joinSep (sep : List Char) :
    ∀ (entries : List (List Char)) (c : Char), c ∈ joinSep sep entries →
      (∃ e ∈ entries, c ∈ e) ∨ c ∈ sep
  | [], c, h => absurd h (List.not_mem_nil c)
  | [e], c, h => Or.inl ⟨e, by simp, h⟩
  | e :: r :: t, c, h => by
    simp only [joinSep, List.append_assoc, List.mem_append] at h
    rcases h with he | hsep | hrec
    · exact Or.inl ⟨e, by simp, he⟩
    · exact Or.inr hsep
    · rcases mem_joinSep sep (r :: t) c hrec with ⟨f, hf, hcf⟩ | hs
      · exact Or.inl ⟨f, List.mem_cons.mpr (Or.inr hf), hcf⟩
      · exact Or.inr hs

theorem splitPy_sep_head (rest : List Char) :
    splitPy ((',') :: (' ') :: rest) = [] :: splitPy rest := by
  rw [splitPy]
  simp

theorem splitPy_comma_free (e : List Char) (he : (',') ∉ e) : splitPy e = [e] := by
  induction e with
  | nil => simp [splitPy]
  | cons a t ih =>
    have ha : a ≠ (',') := fun h => he (by simp [h])
    have ht : (',') ∉ t := fun h => he (List.mem_cons.mpr (Or.inr h))
    rw [splitPy]
    simp only [ha, false_and, if_false]
    rw [ih ht]

theorem splitPy_entry_sep (rest : List Char) :
    ∀ e : List Char, (',') ∉ e →
      splitPy (e ++ (',') :: (' ') :: rest) = e :: splitPy rest := by
  intro e
  induction e with
  | nil =>
    intro _
    simpa using splitPy_sep_head rest
  | cons a t ih =>
    intro he
    have ha : a ≠ (',') := fun h => he (by simp [h])
    have ht : (',') ∉ t := fun h => he (List.mem_cons.mpr (Or.inr h))
    rw [show (a :: t) ++ (',') :: (' ') :: rest = a :: (t ++ (',') :: (' ') :: rest)
      from rfl, splitPy]
    simp only [ha, false_and, if_false]
    rw [ih ht]

theorem splitPy_joinSep :
    ∀ entries : List (List Char), entries ≠ [] →
      (∀ e ∈ entries, (',') ∉ e) →
      splitPy (joinSep ([','] ++ [' ']) entries) = entries
  | [], h, _ => absurd rfl h
  | [e], _, hok => by
    rw [joinSep]
    exact splitPy_comma_free e (hok e (by simp))
  | e :: r :: t, _, hok => by
    rw [joinSep]
    rw [show e ++ ([','] ++ [' ']) ++ joinSep ([','] ++ [' ']) (r :: t) =
      e ++ ((',') :: (' ') :: joinSep ([','] ++ [' ']) (r :: t)) by simp]
    rw [splitPy_entry_sep _ e (hok e (by simp))]
    rw [splitPy_joinSep (r :: t) (by simp) (fun f hf => hok f (List.mem_cons.mpr (Or.inr hf)))]

/-- C8: the content `write_text_report` writes to the named file is exactly
one line per configuration entry — for an argparse rendering
`'Namespace(' + entries joined by ', ' + ')'` whose entries contain no
comma and no parenthesis characters — followed by the preformatted scores
string verbatim, in that order. -/
theorem write_text_report_one_line_per_entry (entries : List (List Char))
    (scores_report_str : List Char) (hne : entries ≠ [])
    (hok : ∀ e ∈ entries, (',') ∉ e ∧ ('(') ∉ e ∧ (')') ∉ e) :
    write_text_report (namespaceTag ++ joinSep ([','] ++ [' ']) entries ++ [')'])
      scores_report_str =
      (entries.map (fun e => e ++ ['\n'])).flatten ++ scores_report_str := by
  have hparen : ('(') ∉ joinSep ([','] ++ [' ']) entries ++ [')'] := by
    intro hmem
    rcases List.mem_append.mp hmem with hj | hr
    · rcases mem_joinSep _ entries _ hj with ⟨f, hf, hcf⟩ | hs
      · exact (hok f hf).2.1 hcf
      · simp at hs
    · simp at hr
  have h1 : removePy namespaceTag
      (namespaceTag ++ joinSep ([','] ++ [' ']) entries ++ [')']) =
      joinSep ([','] ++ [' ']) entries ++ [')'] := by
    rw [List.append_assoc, removePy_at_head namespaceTag _ (by decide)]
    exact removePy_no_occurrence namespaceTag ('(') (by decide) _ hparen
  have h2 : removePy ([')']) (joinSep ([','] ++ [' ']) entries ++ [')']) =
      joinSep ([','] ++ [' ']) entries := by
    rw [removePy_single_eq_filter, List.filter_append]
    have hleft : (joinSep ([','] ++ [' ']) entries).filter (fun x => !(x == (')'))) =
        joinSep ([','] ++ [' ']) entries := by
      refine List.filter_eq_self.mpr ?_
      intro a ha
      simp only [Bool.not_eq_eq_eq_not, Bool.not_true, beq_eq_false_iff_ne, ne_eq]
      intro hpar
      rcases mem_joinSep _ entries a ha with ⟨f, hf, hcf⟩ | hs
      · rw [hpar] at hcf
        exact (hok f hf).2.2 hcf
      · rw [hpar] at hs
        simp at hs
    rw [hleft]
    simp
  unfold write_text_report
  rw [h1, h2, splitPy_joinSep entries hne (fun e he => (hok e he).1)]

/-- C8 witness: two one-character entries and a concrete scores block. -/
theorem write_text_report_one_line_per_entry_witness :
    write_text_report
      (namespaceTag ++ joinSep ([','] ++ [' ']) [[('a')], [('b')]] ++ [')'])
      ([('s')]) =
      (([[('a')], [('b')]] : List (List Char)).map (fun e => e ++ ['\n'])).flatten ++
        [('s')] :=
  write_text_report_one_line_per_entry [[('a')], [('b')]] ([('s')])
    (by decide) (by decide)

end Targer
